import Mathlib

/-!
Shallow embedding of the BC-Combo search engine (src/main.py).

Strings are modelled as `List Char`; a pandas cell that may be NaN is
modelled as an `Option`.  Python sets are modelled as `Finset`; the
dedup key `tuple(sorted(cats))` of a Python set of names is a canonical
form of the set, so two candidates have the same sorted unit tuple
exactly when their unit `Finset`s are equal.
-/

namespace BCCombo

/-- Python `needle in hay` (substring containment) on character lists.
Note `'' in s` is `True` in Python, matched by `needle.isEmpty` on `[]`. -/
def isSubL (needle : List Char) : List Char → Bool
  | [] => needle.isEmpty
  | c :: rest => needle.isPrefixOf (c :: rest) || isSubL needle rest

/-- Fuelled worker for `removeAll`; with fuel ≥ length of the haystack it
removes every (left-to-right, non-overlapping) occurrence of `needle`,
exactly like Python `hay.replace(needle, '')` for a non-empty needle. -/
def removeAllFuel (needle : List Char) : Nat → List Char → List Char
  | 0, hay => hay
  | _ + 1, [] => []
  | fuel + 1, c :: rest =>
    if needle.isPrefixOf (c :: rest) && !needle.isEmpty then
      removeAllFuel needle fuel ((c :: rest).drop needle.length)
    else
      c :: removeAllFuel needle fuel rest

/-- Python `hay.replace(needle, '')` for the non-empty needles used here. -/
def removeAll (needle hay : List Char) : List Char :=
  removeAllFuel needle hay.length hay

/-- Python `s.strip()`: drop whitespace from both ends. -/
def strip (l : List Char) : List Char :=
  ((l.dropWhile Char.isWhitespace).reverse.dropWhile Char.isWhitespace).reverse

/-- Python `s.split(needle)[0]`: the portion of `s` before the first
occurrence of `needle` (all of `s` when `needle` does not occur). -/
def takeBefore (needle : List Char) : List Char → List Char
  | [] => []
  | c :: rest =>
    if needle.isPrefixOf (c :: rest) then [] else c :: takeBefore needle rest

/-- The `strength_map` dict of `parse_effect_strength`, in its (insertion
= iteration) order: `(Sm)`→1, `(M)`→2, `(L)`→3, `(XL)`→4. -/
def strength_map : List (List Char × Int) :=
  [("(Sm)".toList, 1), ("(M)".toList, 2), ("(L)".toList, 3), ("(XL)".toList, 4)]

/-- First loop of `parse_effect_strength`: on the first marker contained in
the label, return the label with the marker removed and stripped, paired
with the marker's tier. -/
def scanMarkers (effect : List Char) : List (List Char × Int) → Option (List Char × Int)
  | [] => none
  | (t, v) :: rest =>
    if isSubL t effect then some (strip (removeAll t effect), v)
    else scanMarkers effect rest

/-- Second loop of `parse_effect_strength` (the `EffectUP` branch): on the
first marker contained in the label, return the portion of the label before
`EffectUP`, stripped and with double quotes removed, paired with the tier. -/
def scanMarkersUP (effect : List Char) : List (List Char × Int) → Option (List Char × Int)
  | [] => none
  | (t, v) :: rest =>
    if isSubL t effect then
      some (removeAll ['\"'] (strip (takeBefore "EffectUP".toList effect)), v)
    else scanMarkersUP effect rest

/-- `parse_effect_strength` from src/main.py.  `none` is a NaN cell
(`pd.isna`); a present label is `some` of its characters. -/
def parse_effect_strength (effect : Option (List Char)) : Option (List Char) × Int :=
  match effect with
  | none => (none, 0)
  | some e =>
    match scanMarkers e strength_map with
    | some (ty, v) => (some ty, v)
    | none =>
      if isSubL "EffectUP".toList e then
        match scanMarkersUP e strength_map with
        | some (ty, v) => (some ty, v)
        | none => (some e, 1)
      else (some e, 1)

section Model

variable {α : Type} [DecidableEq α]

/-- A row of cats.tsv: the optional First/Evolved/True/Ultra stage names. -/
structure CatRow (α : Type) where
  first : Option α
  evolved : Option α
  trueForm : Option α
  ultra : Option α
deriving DecidableEq

/-- The `forms` list built in `load_data` for one row: the present stages
in First < Evolved < True < Ultra order. -/
def forms (r : CatRow α) : List α :=
  [r.first, r.evolved, r.trueForm, r.ultra].filterMap id

/-- Inner loop of `load_data`: for each index `i` in the forms list,
`cat_hierarchy[forms[i]].update(forms[i:])`.  The dict is modelled as a
total function with a missing key read as `∅` (a key is only ever
inserted together with itself, so present keys always map to a set
containing themselves). -/
def addForms (h : α → Finset α) : List α → α → Finset α
  | [] => h
  | f :: rest =>
    addForms (fun u => if u = f then h u ∪ (f :: rest).toFinset else h u) rest

/-- `cat_hierarchy` as built by `load_data` from all rows of cats.tsv. -/
def build_hierarchy (rows : List (CatRow α)) : α → Finset α :=
  rows.foldl (fun h r => addForms h (forms r)) (fun _ => ∅)

/-- `can_satisfy_combo` from src/main.py: every required cat is matched by
some available cat that equals it or lies in its hierarchy entry (the
Python guard `required in cat_hierarchy and available in cat_hierarchy[required]`
is absorbed by the missing-key-as-`∅` reading). -/
def can_satisfy_combo (hier : α → Finset α) (combo_units available_cats : List α) : Bool :=
  combo_units.all fun required =>
    available_cats.any fun a => decide (a = required ∨ a ∈ hier required)

/-- A row of combos.tsv: a name, an optional raw effect label and up to
five optional unit slots. -/
structure ComboRow (α : Type) where
  name : String
  effect : Option (List Char)
  unit1 : Option α
  unit2 : Option α
  unit3 : Option α
  unit4 : Option α
  unit5 : Option α
deriving DecidableEq

/-- `get_combo_units`: the present unit slots in slot order. -/
def get_combo_units (r : ComboRow α) : List α :=
  [r.unit1, r.unit2, r.unit3, r.unit4, r.unit5].filterMap id

/-- The record appended to `matching_combos` for each matching row. -/
structure MatchingCombo (α : Type) where
  name : String
  effect_type : Option (List Char)
  strength : Int
  units : List α
  unit_count : Nat
deriving DecidableEq

/-- Filter phase of `find_combo_combinations`: rows whose parsed effect
type equals the target (a `none` effect type never equals the target
string, as in Python `None == str`). -/
def matching_combos (rows : List (ComboRow α)) (target : List Char) :
    List (MatchingCombo α) :=
  rows.filterMap fun r =>
    let p := parse_effect_strength r.effect
    if p.1 = some target then
      some ⟨r.name, p.1, p.2, get_combo_units r, (get_combo_units r).length⟩
    else none

/-- Order used by `matching_combos.sort(key=strength, reverse=True)`. -/
def strengthGe {α : Type} (a b : MatchingCombo α) : Prop :=
  b.strength ≤ a.strength

instance : DecidableRel (@strengthGe α) :=
  fun a b => inferInstanceAs (Decidable (b.strength ≤ a.strength))

instance : IsTotal (MatchingCombo α) (@strengthGe α) :=
  ⟨fun a b => le_total b.strength a.strength⟩

instance : IsTrans (MatchingCombo α) (@strengthGe α) :=
  ⟨fun _ _ _ h1 h2 => le_trans h2 h1⟩

/-- A candidate result record. `cats` is the Python set `all_cats`; the
emitted `'cats': list(all_cats)` only repackages it, and the dedup key
`tuple(sorted(cats))` is its canonical form, so the set itself is kept. -/
structure Candidate (α : Type) where
  combos : List String
  total_strength : Int
  cats : Finset α
  cat_count : Nat
deriving DecidableEq

/-- `sum(combo['strength'] for combo in combination)`. -/
def sumStrength (l : List (MatchingCombo α)) : Int :=
  (l.map MatchingCombo.strength).sum

/-- The `all_cats` set: starting from `set()`, `all_cats.update(units)`. -/
def unionCats (l : List (MatchingCombo α)) : Finset α :=
  l.foldl (fun s m => s ∪ m.units.toFinset) ∅

/-- The result record appended for one emitted combination. -/
def mkCandidate (l : List (MatchingCombo α)) : Candidate α :=
  ⟨l.map MatchingCombo.name, sumStrength l, unionCats l, (unionCats l).card⟩

/-- All `itertools.combinations(matching_combos, k)` for `k = 1 .. n`:
the length-k subsequences of the list, for every positive k. -/
def allCombinations (l : List (MatchingCombo α)) : List (List (MatchingCombo α)) :=
  (List.range l.length).flatMap fun k => List.sublistsLen (k + 1) l

/-- Enumeration phase: emit a candidate for every combination passing the
strength test and then the unit-budget test. -/
def searchResults (l : List (MatchingCombo α)) (target_strength max_cats : Int) :
    List (Candidate α) :=
  (allCombinations l).filterMap fun comb =>
    if target_strength ≤ sumStrength comb then
      if ((unionCats comb).card : Int) ≤ max_cats then some (mkCandidate comb)
      else none
    else none

/-- Dedup phase: keep the first candidate seen for each distinct cats set
(`seen_cats` holds the keys already kept). -/
def dedupByCats : List (Candidate α) → Finset (Finset α) → List (Candidate α)
  | [], _ => []
  | c :: rest, seen =>
    if c.cats ∈ seen then dedupByCats rest seen
    else c :: dedupByCats rest (insert c.cats seen)

/-- Order used by the final `sort(key=(cat_count, -total_strength))`:
ascending cat count, ties broken by descending total strength. -/
def rankLe {α : Type} (a b : Candidate α) : Prop :=
  a.cat_count < b.cat_count ∨
    (a.cat_count = b.cat_count ∧ b.total_strength ≤ a.total_strength)

instance : DecidableRel (@rankLe α) := fun a b =>
  inferInstanceAs (Decidable (a.cat_count < b.cat_count ∨
    (a.cat_count = b.cat_count ∧ b.total_strength ≤ a.total_strength)))

instance : IsTotal (Candidate α) (@rankLe α) := by
  constructor
  intro a b
  unfold rankLe
  omega

instance : IsTrans (Candidate α) (@rankLe α) := by
  constructor
  intro a b c h1 h2
  unfold rankLe at *
  omega

/-- `find_combo_combinations` from src/main.py: filter, sort by strength
descending, enumerate all combinations, dedup by cats set, rank. -/
def find_combo_combinations (rows : List (ComboRow α)) (target : List Char)
    (target_strength max_cats : Int) : List (Candidate α) :=
  List.insertionSort (@rankLe α)
    (dedupByCats
      (searchResults
        (List.insertionSort (@strengthGe α) (matching_combos rows target))
        target_strength max_cats)
      ∅)

/-- Loop body of `get_effect_types`: `if effect_type: effect_types.add(effect_type)`
— the parsed type is added only when truthy (neither `None` nor empty). -/
def addEffectType (s : Finset (List Char)) (ty : Option (List Char)) :
    Finset (List Char) :=
  match ty with
  | none => s
  | some t => if t = [] then s else insert t s

/-- The set built by `get_effect_types` over the whole catalog. -/
def effectTypesSet (rows : List (ComboRow α)) : Finset (List Char) :=
  rows.foldl (fun s r => addEffectType s (parse_effect_strength r.effect).1) ∅

/-- The /api/effect-types handler: `sorted(list(effect_types))`. -/
def get_effect_types (rows : List (ComboRow α)) : List (List Char) :=
  (effectTypesSet rows).sort (· ≤ ·)

/-- A response of the query surface: `jsonify(...)` with status 200,
`(jsonify error, 400)` or `(jsonify error, 500)`. -/
inductive ApiResponse (α : Type) where
  | ok : List (Candidate α) → Nat → ApiResponse α
  | clientError : String → ApiResponse α
  | serverError : String → ApiResponse α
deriving DecidableEq

/-- The /api/find-combinations handler.  `effect_type` is the raw query
parameter (`none` when missing); `strength` and `max_cats` arrive already
converted to integers; `search` is the search computation, with a Python
exception raised during it modelled as `Except.error` carrying the
message the `except` clause would stringify. -/
def find_combinations (effect_type : Option String) (strength max_cats : Int)
    (search : String → Int → Int → Except String (List (Candidate α))) :
    ApiResponse α :=
  match effect_type with
  | none => ApiResponse.clientError "Effect type is required"
  | some t =>
    if t = "" then ApiResponse.clientError "Effect type is required"
    else
      match search t strength max_cats with
      | Except.ok results => ApiResponse.ok results results.length
      | Except.error msg => ApiResponse.serverError msg

end Model

section SearchLemmas

variable {α : Type} [DecidableEq α]

theorem mem_unionCats_foldl (l : List (MatchingCombo α)) (init : Finset α) (x : α) :
    x ∈ l.foldl (fun s m => s ∪ m.units.toFinset) init ↔
      x ∈ init ∨ ∃ m ∈ l, x ∈ m.units := by
  induction l generalizing init with
  | nil => simp
  | cons m rest ih =>
    simp only [List.foldl_cons, ih, Finset.mem_union, List.mem_toFinset,
      List.mem_cons]
    constructor
    · rintro ((h | h) | ⟨m', hm', hx⟩)
      · exact Or.inl h
      · exact Or.inr ⟨m, Or.inl rfl, h⟩
      · exact Or.inr ⟨m', Or.inr hm', hx⟩
    · rintro (h | ⟨m', (rfl | hm'), hx⟩)
      · exact Or.inl (Or.inl h)
      · exact Or.inl (Or.inr hx)
      · exact Or.inr ⟨m', hm', hx⟩

theorem mem_unionCats (l : List (MatchingCombo α)) (x : α) :
    x ∈ unionCats l ↔ ∃ m ∈ l, x ∈ m.units := by
  simp [unionCats, mem_unionCats_foldl]

theorem unionCats_perm {l l' : List (MatchingCombo α)} (h : l.Perm l') :
    unionCats l = unionCats l' := by
  ext x
  simp only [mem_unionCats]
  exact ⟨fun ⟨m, hm, hx⟩ => ⟨m, h.mem_iff.mp hm, hx⟩,
    fun ⟨m, hm, hx⟩ => ⟨m, h.mem_iff.mpr hm, hx⟩⟩

theorem sumStrength_perm {l l' : List (MatchingCombo α)} (h : l.Perm l') :
    sumStrength l = sumStrength l' :=
  (h.map MatchingCombo.strength).sum_eq

theorem mem_allCombinations {l : List (MatchingCombo α)}
    {comb : List (MatchingCombo α)} :
    comb ∈ allCombinations l ↔ comb.Sublist l ∧ comb ≠ [] := by
  simp only [allCombinations, List.mem_flatMap, List.mem_range,
    List.mem_sublistsLen]
  constructor
  · rintro ⟨k, hk, hsub, hlen⟩
    refine ⟨hsub, ?_⟩
    intro h
    subst h
    simp at hlen
  · rintro ⟨hsub, hne⟩
    have h1 : 1 ≤ comb.length := List.length_pos.mpr hne
    have h2 := hsub.length_le
    exact ⟨comb.length - 1, by omega, hsub, by omega⟩

theorem mem_searchResults {l : List (MatchingCombo α)} {ts mc : Int}
    {c : Candidate α} :
    c ∈ searchResults l ts mc ↔
      ∃ comb, comb.Sublist l ∧ comb ≠ [] ∧ ts ≤ sumStrength comb ∧
        ((unionCats comb).card : Int) ≤ mc ∧ c = mkCandidate comb := by
  simp only [searchResults, List.mem_filterMap]
  constructor
  · rintro ⟨comb, hmem, heq⟩
    rw [mem_allCombinations] at hmem
    by_cases h1 : ts ≤ sumStrength comb
    · by_cases h2 : ((unionCats comb).card : Int) ≤ mc
      · rw [if_pos h1, if_pos h2, Option.some_inj] at heq
        exact ⟨comb, hmem.1, hmem.2, h1, h2, heq.symm⟩
      · rw [if_pos h1, if_neg h2] at heq
        exact absurd heq (by simp)
    · rw [if_neg h1] at heq
      exact absurd heq (by simp)
  · rintro ⟨comb, hsub, hne, h1, h2, rfl⟩
    exact ⟨comb, mem_allCombinations.mpr ⟨hsub, hne⟩, by rw [if_pos h1, if_pos h2]⟩

theorem dedupByCats_subset {l : List (Candidate α)} {seen : Finset (Finset α)}
    {c : Candidate α} (h : c ∈ dedupByCats l seen) : c ∈ l := by
  induction l generalizing seen with
  | nil => simpa [dedupByCats] using h
  | cons a rest ih =>
    simp only [dedupByCats] at h
    by_cases ha : a.cats ∈ seen
    · rw [if_pos ha] at h
      exact List.mem_cons_of_mem _ (ih h)
    · rw [if_neg ha] at h
      rcases List.mem_cons.mp h with rfl | h
      · exact List.mem_cons_self _ _
      · exact List.mem_cons_of_mem _ (ih h)

theorem dedupByCats_keys {l : List (Candidate α)} {seen : Finset (Finset α)}
    {K : Finset α} (hK : K ∉ seen) :
    (∃ c ∈ dedupByCats l seen, c.cats = K) ↔ ∃ c ∈ l, c.cats = K := by
  induction l generalizing seen with
  | nil => simp [dedupByCats]
  | cons a rest ih =>
    simp only [dedupByCats]
    by_cases ha : a.cats ∈ seen
    · rw [if_pos ha, ih hK]
      constructor
      · rintro ⟨c, hc, hck⟩
        exact ⟨c, List.mem_cons_of_mem _ hc, hck⟩
      · rintro ⟨c, hc, hck⟩
        rcases List.mem_cons.mp hc with rfl | hc'
        · exact absurd (hck ▸ ha) hK
        · exact ⟨c, hc', hck⟩
    · rw [if_neg ha]
      by_cases hak : a.cats = K
      · constructor
        · intro _
          exact ⟨a, List.mem_cons_self _ _, hak⟩
        · intro _
          exact ⟨a, List.mem_cons_self _ _, hak⟩
      · have hK' : K ∉ insert a.cats seen := by
          simp only [Finset.mem_insert]
          rintro (rfl | h)
          · exact hak rfl
          · exact hK h
        constructor
        · rintro ⟨c, hc, hck⟩
          rcases List.mem_cons.mp hc with rfl | hc'
          · exact absurd hck hak
          · obtain ⟨c', hc'', hck'⟩ := (ih hK').mp ⟨c, hc', hck⟩
            exact ⟨c', List.mem_cons_of_mem _ hc'', hck'⟩
        · rintro ⟨c, hc, hck⟩
          rcases List.mem_cons.mp hc with rfl | hc'
          · exact absurd hck hak
          · obtain ⟨c', hc'', hck'⟩ := (ih hK').mpr ⟨c, hc', hck⟩
            exact ⟨c', List.mem_cons_of_mem _ hc'', hck'⟩

theorem dedupByCats_not_seen {l : List (Candidate α)} {seen : Finset (Finset α)}
    {c : Candidate α} (h : c ∈ dedupByCats l seen) : c.cats ∉ seen := by
  induction l generalizing seen with
  | nil => simp [dedupByCats] at h
  | cons a rest ih =>
    simp only [dedupByCats] at h
    by_cases ha : a.cats ∈ seen
    · rw [if_pos ha] at h
      exact ih h
    · rw [if_neg ha] at h
      rcases List.mem_cons.mp h with rfl | h
      · exact ha
      · exact fun hc => ih h (Finset.mem_insert_of_mem hc)

theorem dedupByCats_nodup (l : List (Candidate α)) (seen : Finset (Finset α)) :
    ((dedupByCats l seen).map Candidate.cats).Nodup := by
  induction l generalizing seen with
  | nil => simp [dedupByCats]
  | cons a rest ih =>
    simp only [dedupByCats]
    by_cases ha : a.cats ∈ seen
    · rw [if_pos ha]
      exact ih _
    · rw [if_neg ha]
      simp only [List.map_cons, List.nodup_cons]
      refine ⟨?_, ih _⟩
      intro hmem
      obtain ⟨c, hc, hck⟩ := List.mem_map.mp hmem
      exact dedupByCats_not_seen hc (hck ▸ Finset.mem_insert_self _ _)

theorem length_filter_key {β γ : Type} [DecidableEq γ] (f : β → γ) (K : γ)
    (l : List β) (hn : (l.map f).Nodup) (he : ∃ c ∈ l, f c = K) :
    (l.filter fun c => decide (f c = K)).length = 1 := by
  induction l with
  | nil => simp at he
  | cons a rest ih =>
    simp only [List.map_cons, List.nodup_cons] at hn
    by_cases hak : f a = K
    · have hrest : (rest.filter fun c => decide (f c = K)) = [] := by
        rw [List.filter_eq_nil_iff]
        intro c hc
        simp only [decide_eq_true_eq]
        intro hck
        exact hn.1 (List.mem_map.mpr ⟨c, hc, hck.trans hak.symm⟩)
      simp [List.filter_cons, hak, hrest]
    · rcases he with ⟨c, hc, hck⟩
      rcases List.mem_cons.mp hc with rfl | hc'
      · exact absurd hck hak
      · simp only [List.filter_cons, hak, decide_eq_true_eq, if_neg hak]
        exact ih hn.2 ⟨c, hc', hck⟩

end SearchLemmas

section SearchTheorems

variable {α : Type} [DecidableEq α]

/-- C1: every subset of the matching combos whose strength sum reaches the
target and whose unit union fits the budget is represented by exactly one
candidate of the search output (keyed by its unit set, i.e. by the sorted
unit tuple), and no two output candidates have the same unit set. -/
theorem search_completeness_dedup (rows : List (ComboRow α)) (target : List Char)
    (ts mc : Int) (S : List (MatchingCombo α))
    (hS : S.Sublist (matching_combos rows target)) (hne : S ≠ [])
    (hstr : ts ≤ sumStrength S) (hcard : ((unionCats S).card : Int) ≤ mc) :
    ((find_combo_combinations rows target ts mc).filter
        (fun c => decide (c.cats = unionCats S))).length = 1 ∧
      ((find_combo_combinations rows target ts mc).map Candidate.cats).Nodup := by
  have hperm : (List.insertionSort (@strengthGe α) (matching_combos rows target)).Perm
      (matching_combos rows target) := List.perm_insertionSort _ _
  have hsp : S.Subperm
      (List.insertionSort (@strengthGe α) (matching_combos rows target)) :=
    hS.subperm.trans hperm.symm.subperm
  obtain ⟨S', hS'p, hS'sub⟩ := hsp
  have hS'ne : S' ≠ [] := by
    intro h
    apply hne
    rw [h] at hS'p
    exact (hS'p.symm.eq_nil)
  have hsum : sumStrength S' = sumStrength S := sumStrength_perm hS'p
  have hcats : unionCats S' = unionCats S := unionCats_perm hS'p
  have hemit : mkCandidate S' ∈ searchResults
      (List.insertionSort (@strengthGe α) (matching_combos rows target)) ts mc :=
    mem_searchResults.mpr ⟨S', hS'sub, hS'ne, by rw [hsum]; exact hstr,
      by rw [hcats]; exact hcard, rfl⟩
  have hkey : ∃ c ∈ dedupByCats (searchResults
      (List.insertionSort (@strengthGe α) (matching_combos rows target)) ts mc) ∅,
      c.cats = unionCats S := by
    apply (dedupByCats_keys (by simp)).mpr
    exact ⟨mkCandidate S', hemit, hcats⟩
  have hnodup : ((dedupByCats (searchResults
      (List.insertionSort (@strengthGe α) (matching_combos rows target)) ts mc)
      ∅).map Candidate.cats).Nodup := dedupByCats_nodup _ _
  have houtperm : (find_combo_combinations rows target ts mc).Perm
      (dedupByCats (searchResults
        (List.insertionSort (@strengthGe α) (matching_combos rows target)) ts mc)
        ∅) := List.perm_insertionSort _ _
  constructor
  · rw [(houtperm.filter _).length_eq]
    exact length_filter_key Candidate.cats (unionCats S) _ hnodup hkey
  · exact (houtperm.map Candidate.cats).nodup_iff.mpr hnodup

/-- C2: every output candidate stores a total strength that reaches the
target and a unit count within the budget, the unit count is the size of
its unit set, and both fields really are the strength sum and unit union
of a nonempty subset of the matching combos. -/
theorem search_soundness (rows : List (ComboRow α)) (target : List Char)
    (ts mc : Int) (c : Candidate α)
    (hc : c ∈ find_combo_combinations rows target ts mc) :
    ts ≤ c.total_strength ∧ (c.cat_count : Int) ≤ mc ∧
      c.cat_count = c.cats.card ∧
      ∃ comb, comb ≠ [] ∧ comb.Subperm (matching_combos rows target) ∧
        c.total_strength = sumStrength comb ∧ c.cats = unionCats comb := by
  have houtperm : (find_combo_combinations rows target ts mc).Perm
      (dedupByCats (searchResults
        (List.insertionSort (@strengthGe α) (matching_combos rows target)) ts mc)
        ∅) := List.perm_insertionSort _ _
  have hc' := dedupByCats_subset (houtperm.mem_iff.mp hc)
  obtain ⟨comb, hsub, hne, h1, h2, rfl⟩ := mem_searchResults.mp hc'
  refine ⟨h1, h2, rfl, comb, hne, ?_, rfl, rfl⟩
  exact hsub.subperm.trans (List.perm_insertionSort _ _).subperm

/-- C5: the search output is non-decreasing in unit count, and candidates
with equal unit count appear in non-increasing order of total strength. -/
theorem ranking_order (rows : List (ComboRow α)) (target : List Char)
    (ts mc : Int) :
    (find_combo_combinations rows target ts mc).Pairwise
      (fun a b => a.cat_count ≤ b.cat_count ∧
        (a.cat_count = b.cat_count → b.total_strength ≤ a.total_strength)) := by
  have h : (find_combo_combinations rows target ts mc).Pairwise (@rankLe α) :=
    List.sorted_insertionSort _ _
  refine h.imp ?_
  intro a b hab
  rcases hab with h1 | ⟨h1, h2⟩
  · exact ⟨le_of_lt h1, fun hcc => absurd hcc (Nat.ne_of_lt h1)⟩
  · exact ⟨le_of_eq h1, fun _ => h2⟩

end SearchTheorems

/-- A tiny concrete catalog over unit names 1, 2, 3: combo "A" grants
"Attack" at tier 2 with units 1 and 2; combo "B" grants "Attack" at
tier 3 with units 2 and 3. -/
def exRows : List (ComboRow Nat) :=
  [⟨"A", some "Attack (M)".toList, some 1, some 2, none, none, none⟩,
   ⟨"B", some "Attack (L)".toList, some 2, some 3, none, none, none⟩]

/-- Witness for C1 at the concrete catalog: the subset consisting of both
matching combos (strength 5 ≥ 3, three units ≤ 3) has exactly one
representative in the output, whose unit-set key is its unit union. -/
theorem search_completeness_dedup_witness :
    (matching_combos exRows "Attack".toList ≠ [] ∧
      (3 : Int) ≤ sumStrength (matching_combos exRows "Attack".toList) ∧
      ((unionCats (matching_combos exRows "Attack".toList)).card : Int) ≤ 3) ∧
    ((find_combo_combinations exRows "Attack".toList 3 3).filter
        (fun c => decide (c.cats = unionCats
          (matching_combos exRows "Attack".toList)))).length = 1 ∧
      ((find_combo_combinations exRows "Attack".toList 3 3).map
        Candidate.cats).Nodup :=
  ⟨⟨by decide, by decide, by decide⟩,
    search_completeness_dedup exRows "Attack".toList 3 3
      (matching_combos exRows "Attack".toList)
      (List.Sublist.refl _) (by decide) (by decide) (by decide)⟩

/-- Witness for C2 at the concrete catalog: the candidate using combo "B"
alone is in the output and satisfies the soundness bounds. -/
theorem search_soundness_witness :
    ∃ c ∈ find_combo_combinations exRows "Attack".toList 3 3,
      (3 : Int) ≤ c.total_strength ∧ (c.cat_count : Int) ≤ 3 ∧
        c.cat_count = c.cats.card ∧
        ∃ comb, comb ≠ [] ∧
          comb.Subperm (matching_combos exRows "Attack".toList) ∧
          c.total_strength = sumStrength comb ∧ c.cats = unionCats comb := by
  have hmem : (⟨["B"], 3, ({2, 3} : Finset Nat), 2⟩ : Candidate Nat) ∈
      find_combo_combinations exRows "Attack".toList 3 3 := by decide
  exact ⟨_, hmem, search_soundness exRows "Attack".toList 3 3 _ hmem⟩

/-- C1 counterexample: with target strength 0 and budget 0, the empty
subset of matching combos qualifies as the claim states it (strength sum
0 ≥ 0, unit union of size 0 ≤ 0), yet the enumeration starts at size 1,
so no output candidate carries its unit set — it is represented by zero
candidates, not exactly one. -/
theorem search_completeness_cex :
    ([] : List (MatchingCombo Nat)).Sublist
        (matching_combos exRows "Attack".toList) ∧
      (0 : Int) ≤ sumStrength ([] : List (MatchingCombo Nat)) ∧
      ((unionCats ([] : List (MatchingCombo Nat))).card : Int) ≤ 0 ∧
      ((find_combo_combinations exRows "Attack".toList 0 0).filter
          (fun c => decide (c.cats =
            unionCats ([] : List (MatchingCombo Nat))))).length ≠ 1 :=
  ⟨List.nil_sublist _, by decide, by decide, by decide⟩

/-- Witness for C5 at the concrete catalog. -/
theorem ranking_order_witness :
    (find_combo_combinations exRows "Attack".toList 3 3).Pairwise
      (fun a b => a.cat_count ≤ b.cat_count ∧
        (a.cat_count = b.cat_count → b.total_strength ≤ a.total_strength)) :=
  ranking_order exRows "Attack".toList 3 3

section HierarchyLemmas

variable {α : Type} [DecidableEq α]

theorem mem_addForms (h : α → Finset α) (l : List α) (u x : α) :
    x ∈ addForms h l u ↔ x ∈ h u ∨ ∃ t, (u :: t) <:+ l ∧ x ∈ u :: t := by
  induction l generalizing h with
  | nil => simp [addForms, List.suffix_nil]
  | cons f rest ih =>
    simp only [addForms]
    rw [ih]
    by_cases huf : u = f
    · subst huf
      rw [if_pos rfl]
      simp only [Finset.mem_union, List.mem_toFinset, List.suffix_cons_iff]
      constructor
      · rintro ((hh | hl) | ⟨t, hsuf, hx⟩)
        · exact Or.inl hh
        · exact Or.inr ⟨rest, Or.inl rfl, hl⟩
        · exact Or.inr ⟨t, Or.inr hsuf, hx⟩
      · rintro (hh | ⟨t, hsuf | hsuf, hx⟩)
        · exact Or.inl (Or.inl hh)
        · injection hsuf with h1 h2
          subst h2
          exact Or.inl (Or.inr hx)
        · exact Or.inr ⟨t, hsuf, hx⟩
    · rw [if_neg huf]
      simp only [List.suffix_cons_iff]
      constructor
      · rintro (hh | ⟨t, hsuf, hx⟩)
        · exact Or.inl hh
        · exact Or.inr ⟨t, Or.inr hsuf, hx⟩
      · rintro (hh | ⟨t, hsuf | hsuf, hx⟩)
        · exact Or.inl hh
        · injection hsuf with h1 h2
          exact absurd h1 huf
        · exact Or.inr ⟨t, hsuf, hx⟩

theorem mem_build_hierarchy (rows : List (CatRow α)) (u x : α) :
    x ∈ build_hierarchy rows u ↔
      ∃ r ∈ rows, ∃ t, (u :: t) <:+ forms r ∧ x ∈ u :: t := by
  suffices hgen : ∀ h0 : α → Finset α,
      x ∈ rows.foldl (fun h r => addForms h (forms r)) h0 u ↔
        x ∈ h0 u ∨ ∃ r ∈ rows, ∃ t, (u :: t) <:+ forms r ∧ x ∈ u :: t by
    rw [build_hierarchy, hgen]
    simp
  intro h0
  induction rows generalizing h0 with
  | nil => simp
  | cons r rest ih =>
    simp only [List.foldl_cons]
    rw [ih, mem_addForms]
    constructor
    · rintro ((hh | ⟨t, hsuf, hx⟩) | ⟨r', hr', t, hsuf, hx⟩)
      · exact Or.inl hh
      · exact Or.inr ⟨r, List.mem_cons_self _ _, t, hsuf, hx⟩
      · exact Or.inr ⟨r', List.mem_cons_of_mem _ hr', t, hsuf, hx⟩
    · rintro (hh | ⟨r', hr', t, hsuf, hx⟩)
      · exact Or.inl (Or.inl hh)
      · rcases List.mem_cons.mp hr' with rfl | hr''
        · exact Or.inl (Or.inr ⟨t, hsuf, hx⟩)
        · exact Or.inr ⟨r', hr'', t, hsuf, hx⟩

theorem suffix_triple {a b c : α} {l : List α} :
    l <:+ [a, b, c] ↔ l = [] ∨ l = [c] ∨ l = [b, c] ∨ l = [a, b, c] := by
  rw [List.suffix_cons_iff, List.suffix_cons_iff, List.suffix_cons_iff,
    List.suffix_nil]
  tauto

end HierarchyLemmas

section HierarchyTheorems

variable {α : Type} [DecidableEq α]

/-- C6 (amended): in every built hierarchy, every unit present in the
relation satisfies itself — unconditionally; and for a chain `[A, B, C]`
whose units occur in no other row's chain, the satisfying set of `A`
contains that of `B`, which contains that of `C`. -/
theorem hierarchy_monotone (rows : List (CatRow α)) :
    (∀ r' ∈ rows, ∀ u ∈ forms r', u ∈ build_hierarchy rows u) ∧
      ∀ r ∈ rows, ∀ A B C : α, forms r = [A, B, C] →
        (∀ r' ∈ rows, ∀ u ∈ forms r, u ∈ forms r' → forms r' = forms r) →
        build_hierarchy rows C ⊆ build_hierarchy rows B ∧
          build_hierarchy rows B ⊆ build_hierarchy rows A := by
  have self_mem : ∀ r' ∈ rows, ∀ u ∈ forms r', u ∈ build_hierarchy rows u := by
    intro r' hr' u hu
    rw [mem_build_hierarchy]
    obtain ⟨s, t, heq⟩ := List.append_of_mem hu
    exact ⟨r', hr', t, ⟨s, heq.symm⟩, List.mem_cons_self _ _⟩
  refine ⟨self_mem, ?_⟩
  intro r hr A B C hf hdisj
  constructor
  · intro x hx
    rw [mem_build_hierarchy] at hx ⊢
    obtain ⟨r', hr', t, hsuf, hx⟩ := hx
    have hCr' : C ∈ forms r' := hsuf.subset (List.mem_cons_self _ _)
    have hCr : C ∈ forms r := by rw [hf]; simp
    rw [hdisj r' hr' C hCr hCr', hf] at hsuf
    refine ⟨r, hr, [C], by rw [hf]; exact ⟨[A], rfl⟩, ?_⟩
    rcases suffix_triple.mp hsuf with h | h | h | h
    · exact absurd h (by simp)
    · rw [h] at hx
      simp only [List.mem_singleton] at hx
      subst hx
      simp
    · rw [h] at hx
      exact hx
    · injection h with h1 h2
      subst h2
      rcases List.mem_cons.mp hx with rfl | hx'
      · simp
      · exact hx'
  · intro x hx
    rw [mem_build_hierarchy] at hx ⊢
    obtain ⟨r', hr', t, hsuf, hx⟩ := hx
    have hBr' : B ∈ forms r' := hsuf.subset (List.mem_cons_self _ _)
    have hBr : B ∈ forms r := by rw [hf]; simp
    rw [hdisj r' hr' B hBr hBr', hf] at hsuf
    refine ⟨r, hr, [B, C], by rw [hf], ?_⟩
    rcases suffix_triple.mp hsuf with h | h | h | h
    · exact absurd h (by simp)
    · injection h with h1 h2
      subst h2
      simp only [List.mem_singleton] at hx
      subst hx
      simp
    · rw [h] at hx
      exact List.mem_cons_of_mem _ hx
    · rw [h] at hx
      exact hx

end HierarchyTheorems

/-- A one-row unit table: the evolution chain 0 → 1 → 2. -/
def exCatRows : List (CatRow Nat) := [⟨some 0, some 1, some 2, none⟩]

/-- Witness for C6 (amended): self-membership on the one-row table, and
the chain monotonicity instantiated at its row with the hypotheses
discharged concretely. -/
theorem hierarchy_monotone_witness :
    (∀ r' ∈ exCatRows, ∀ u ∈ forms r', u ∈ build_hierarchy exCatRows u) ∧
      build_hierarchy exCatRows 2 ⊆ build_hierarchy exCatRows 1 ∧
        build_hierarchy exCatRows 1 ⊆ build_hierarchy exCatRows 0 :=
  ⟨(hierarchy_monotone exCatRows).1,
    (hierarchy_monotone exCatRows).2 ⟨some 0, some 1, some 2, none⟩
      (by decide) 0 1 2 (by decide) (by decide)⟩

/-- A two-row unit table in which unit 1 heads a second chain 1 → 3. -/
def cexCatRows : List (CatRow Nat) :=
  [⟨some 0, some 1, some 2, none⟩, ⟨some 1, some 3, none, none⟩]

/-- C6 counterexample: with the chain [0, 1, 2] present as a row's ordered
stages, the satisfying set of 0 is not a superset of the satisfying set
of 1, because 1 also heads the chain [1, 3] and so 3 satisfies 1 but
not 0. -/
theorem hierarchy_monotone_cex :
    (⟨some 0, some 1, some 2, none⟩ : CatRow Nat) ∈ cexCatRows ∧
      forms (⟨some 0, some 1, some 2, none⟩ : CatRow Nat) = [0, 1, 2] ∧
      ¬ build_hierarchy cexCatRows 1 ⊆ build_hierarchy cexCatRows 0 := by
  refine ⟨by decide, by decide, ?_⟩
  intro hsub
  have h3 : (3 : Nat) ∈ build_hierarchy cexCatRows 1 := by decide
  have h0 : (3 : Nat) ∈ build_hierarchy cexCatRows 0 := hsub h3
  revert h0
  decide

section ParserLemmas

theorem scanMarkers_eq_none {e : List Char} {m : List (List Char × Int)}
    (h : scanMarkers e m = none) : ∀ p ∈ m, isSubL p.1 e = false := by
  induction m with
  | nil => simp
  | cons q rest ih =>
    obtain ⟨t, v⟩ := q
    simp only [scanMarkers] at h
    by_cases ht : isSubL t e = true
    · rw [if_pos ht] at h
      exact absurd h (by simp)
    · rw [if_neg ht] at h
      intro p hp
      rcases List.mem_cons.mp hp with rfl | hp'
      · simpa using ht
      · exact ih h p hp'

theorem scanMarkersUP_eq_none {e : List Char} {m : List (List Char × Int)}
    (h : ∀ p ∈ m, isSubL p.1 e = false) : scanMarkersUP e m = none := by
  induction m with
  | nil => rfl
  | cons q rest ih =>
    obtain ⟨t, v⟩ := q
    simp only [scanMarkersUP]
    rw [if_neg]
    · exact ih fun p hp => h p (List.mem_cons_of_mem _ hp)
    · simp [h (t, v) (List.mem_cons_self _ _)]

end ParserLemmas

/-- C3 (code bug): on the label the source comment singles out as the
special case to handle, the first marker loop already fires on `(XL)`, so
the `EffectUP` branch is dead and the returned effect type keeps the
quotes and the `EffectUP` keyword instead of being cut before it. -/
theorem parse_effectUP_example :
    parse_effect_strength (some "\"Eva Angel Killer\" EffectUP (XL)".toList) =
      (some "\"Eva Angel Killer\" EffectUP".toList, 4) := by decide

/-- C4 counterexample: the empty label is not NaN, so it falls through to
the default branch and does not yield `(none, 0)`. -/
theorem parse_empty_cex :
    parse_effect_strength (some "".toList) ≠ ((none : Option (List Char)), 0) := by
  decide

/-- C4 (amended): an absent (NaN) label parses to `(none, 0)`; a present
but empty label is not absent and parses to itself with default tier 1. -/
theorem parse_absent_empty :
    parse_effect_strength (none : Option (List Char)) = (none, 0) ∧
      parse_effect_strength (some "".toList) = (some "".toList, 1) := by
  exact ⟨rfl, by decide⟩

/-- C7: on any non-empty label the parser checks the four markers in the
declared order (Sm), (M), (L), (XL); the first one contained in the label
wins, the effect type is the label with that marker removed and stripped
of surrounding whitespace, and the tier is the marker's value; with no
marker present the label itself is returned verbatim with tier 1 (the
`EffectUP` re-scan can never fire, because it re-checks the same four
markers that just failed). -/
theorem parse_marker_scan (e : List Char) (he : e ≠ []) :
    parse_effect_strength (some e) =
      if isSubL "(Sm)".toList e then (some (strip (removeAll "(Sm)".toList e)), 1)
      else if isSubL "(M)".toList e then (some (strip (removeAll "(M)".toList e)), 2)
      else if isSubL "(L)".toList e then (some (strip (removeAll "(L)".toList e)), 3)
      else if isSubL "(XL)".toList e then (some (strip (removeAll "(XL)".toList e)), 4)
      else (some e, 1) := by
  simp only [parse_effect_strength]
  by_cases h1 : isSubL "(Sm)".toList e = true
  · have hs : scanMarkers e strength_map =
        some (strip (removeAll "(Sm)".toList e), 1) := by
      simp only [strength_map, scanMarkers]
      rw [if_pos h1]
    simp only [hs]
    rw [if_pos h1]
  · by_cases h2 : isSubL "(M)".toList e = true
    · have hs : scanMarkers e strength_map =
          some (strip (removeAll "(M)".toList e), 2) := by
        simp only [strength_map, scanMarkers]
        rw [if_neg h1, if_pos h2]
      simp only [hs]
      rw [if_neg h1, if_pos h2]
    · by_cases h3 : isSubL "(L)".toList e = true
      · have hs : scanMarkers e strength_map =
            some (strip (removeAll "(L)".toList e), 3) := by
          simp only [strength_map, scanMarkers]
          rw [if_neg h1, if_neg h2, if_pos h3]
        simp only [hs]
        rw [if_neg h1, if_neg h2, if_pos h3]
      · by_cases h4 : isSubL "(XL)".toList e = true
        · have hs : scanMarkers e strength_map =
              some (strip (removeAll "(XL)".toList e), 4) := by
            simp only [strength_map, scanMarkers]
            rw [if_neg h1, if_neg h2, if_neg h3, if_pos h4]
          simp only [hs]
          rw [if_neg h1, if_neg h2, if_neg h3, if_pos h4]
        · have hs : scanMarkers e strength_map = none := by
            simp only [strength_map, scanMarkers]
            rw [if_neg h1, if_neg h2, if_neg h3, if_neg h4]
          have hup : scanMarkersUP e strength_map = none := by
            apply scanMarkersUP_eq_none
            intro p hp
            simp only [strength_map, List.mem_cons,
              List.not_mem_nil, or_false] at hp
            rcases hp with rfl | rfl | rfl | rfl
            · simpa using h1
            · simpa using h2
            · simpa using h3
            · simpa using h4
          simp only [hs, hup]
          rw [if_neg h1, if_neg h2, if_neg h3, if_neg h4, ite_self]

/-- Witness for C7 on the spec's own example label. -/
theorem parse_marker_scan_witness :
    "Attack (L)".toList ≠ [] ∧
      parse_effect_strength (some "Attack (L)".toList) =
        (some "Attack".toList, 3) :=
  ⟨by decide,
    (parse_marker_scan "Attack (L)".toList (by decide)).trans (by decide)⟩

section RemainingTheorems

variable {α : Type} [DecidableEq α]

/-- C8: the availability predicate holds exactly when every required unit
is matched by some owned unit that equals it or lies in its satisfying
set of the hierarchy relation. -/
theorem can_satisfy_iff (rows : List (CatRow α)) (req avail : List α) :
    can_satisfy_combo (build_hierarchy rows) req avail = true ↔
      ∀ R ∈ req, ∃ O ∈ avail, O = R ∨ O ∈ build_hierarchy rows R := by
  simp [can_satisfy_combo, List.all_eq_true, List.any_eq_true]

/-- Witness for C8: owning the final form 2 satisfies a requirement for
the base form 0 of the chain 0 → 1 → 2. -/
theorem can_satisfy_iff_witness :
    (can_satisfy_combo (build_hierarchy exCatRows) [0] [2] = true ↔
      ∀ R ∈ [0], ∃ O ∈ [2], O = R ∨ O ∈ build_hierarchy exCatRows R) ∧
      can_satisfy_combo (build_hierarchy exCatRows) [0] [2] = true :=
  ⟨can_satisfy_iff exCatRows [0] [2], by decide⟩

/-- C9: the find-combinations handler answers a client error when the
effect type is missing or empty, without consulting the search
computation at all; and when the search computation faults, it answers a
server error carrying the fault's message instead of propagating the
fault (the handler is a total function, so the process keeps serving). -/
theorem find_combinations_errors (strength max_cats : Int)
    (search1 search2 : String → Int → Int → Except String (List (Candidate α)))
    (t msg : String) (ht : t ≠ "") :
    (find_combinations none strength max_cats search1 =
        ApiResponse.clientError "Effect type is required" ∧
      find_combinations none strength max_cats search1 =
        find_combinations none strength max_cats search2) ∧
    (find_combinations (some "") strength max_cats search1 =
        ApiResponse.clientError "Effect type is required" ∧
      find_combinations (some "") strength max_cats search1 =
        find_combinations (some "") strength max_cats search2) ∧
    find_combinations (some t) strength max_cats
        (fun _ _ _ => (Except.error msg : Except String (List (Candidate α)))) =
      ApiResponse.serverError msg := by
  refine ⟨⟨rfl, rfl⟩, ⟨?_, ?_⟩, ?_⟩
  · simp [find_combinations]
  · simp [find_combinations]
  · simp [find_combinations, ht]

/-- Witness for C9 at concrete arguments. -/
theorem find_combinations_errors_witness :
    ("Attack" : String) ≠ "" ∧
    ((find_combinations none 1 5
          (fun _ _ _ => Except.ok ([] : List (Candidate Nat))) =
        ApiResponse.clientError "Effect type is required" ∧
      find_combinations none 1 5
          (fun _ _ _ => Except.ok ([] : List (Candidate Nat))) =
        find_combinations none 1 5 (fun _ _ _ => Except.error "late")) ∧
    (find_combinations (some "") 1 5
          (fun _ _ _ => Except.ok ([] : List (Candidate Nat))) =
        ApiResponse.clientError "Effect type is required" ∧
      find_combinations (some "") 1 5
          (fun _ _ _ => Except.ok ([] : List (Candidate Nat))) =
        find_combinations (some "") 1 5 (fun _ _ _ => Except.error "late")) ∧
    find_combinations (some "Attack") 1 5
        (fun _ _ _ => (Except.error "boom" : Except String (List (Candidate Nat)))) =
      ApiResponse.serverError "boom") :=
  ⟨by decide,
    find_combinations_errors 1 5 (fun _ _ _ => Except.ok [])
      (fun _ _ _ => Except.error "late") "Attack" "boom" (by decide)⟩

theorem mem_addEffectType (s : Finset (List Char)) (ty : Option (List Char))
    (t : List Char) :
    t ∈ addEffectType s ty ↔ t ∈ s ∨ (t ≠ [] ∧ ty = some t) := by
  rcases ty with _ | u
  · simp [addEffectType]
  · by_cases hu : u = []
    · subst hu
      simp only [addEffectType, if_pos rfl]
      constructor
      · exact Or.inl
      · rintro (hi | ⟨hne, heq⟩)
        · exact hi
        · injection heq with ht
          exact absurd ht.symm hne
    · simp only [addEffectType, if_neg hu]
      constructor
      · intro hi
        rcases Finset.mem_insert.mp hi with rfl | hi'
        · exact Or.inr ⟨hu, rfl⟩
        · exact Or.inl hi'
      · rintro (hi | ⟨hne, heq⟩)
        · exact Finset.mem_insert_of_mem hi
        · injection heq with ht
          exact ht ▸ Finset.mem_insert_self _ _

theorem mem_effectTypesSet (rows : List (ComboRow α)) (t : List Char) :
    t ∈ effectTypesSet rows ↔
      t ≠ [] ∧ ∃ r ∈ rows, (parse_effect_strength r.effect).1 = some t := by
  suffices hgen : ∀ init : Finset (List Char),
      t ∈ rows.foldl
          (fun s r => addEffectType s (parse_effect_strength r.effect).1)
          init ↔
        t ∈ init ∨
          (t ≠ [] ∧ ∃ r ∈ rows, (parse_effect_strength r.effect).1 = some t) by
    rw [effectTypesSet, hgen]
    simp
  intro init
  induction rows generalizing init with
  | nil => simp
  | cons r rest ih =>
    simp only [List.foldl_cons]
    rw [ih, mem_addEffectType]
    constructor
    · rintro ((hi | ⟨hne, hp⟩) | ⟨hne, r', hr', hr'p⟩)
      · exact Or.inl hi
      · exact Or.inr ⟨hne, r, List.mem_cons_self _ _, hp⟩
      · exact Or.inr ⟨hne, r', List.mem_cons_of_mem _ hr', hr'p⟩
    · rintro (hi | ⟨hne, r', hr', hr'p⟩)
      · exact Or.inl (Or.inl hi)
      · rcases List.mem_cons.mp hr' with rfl | hr''
        · exact Or.inl (Or.inr ⟨hne, hr'p⟩)
        · exact Or.inr ⟨hne, r', hr'', hr'p⟩

/-- C10: the effect-type listing is sorted and duplicate-free, contains
exactly the non-empty parsed effect types of the catalog, and therefore
never contains the empty string nor an absent type. -/
theorem effect_types_spec (rows : List (ComboRow α)) :
    [] ∉ get_effect_types rows ∧
      (get_effect_types rows).Sorted (· ≤ ·) ∧
      (get_effect_types rows).Nodup ∧
      ∀ t : List Char, t ∈ get_effect_types rows ↔
        t ≠ [] ∧ ∃ r ∈ rows, (parse_effect_strength r.effect).1 = some t := by
  refine ⟨?_, Finset.sort_sorted _ _, Finset.sort_nodup _ _, ?_⟩
  · intro h
    rw [get_effect_types, Finset.mem_sort, mem_effectTypesSet] at h
    exact h.1 rfl
  · intro t
    rw [get_effect_types, Finset.mem_sort, mem_effectTypesSet]

/-- Witness for C10 at the concrete catalog. -/
theorem effect_types_spec_witness :
    "Attack".toList ∈ get_effect_types exRows ↔
      "Attack".toList ≠ [] ∧ ∃ r ∈ exRows,
        (parse_effect_strength r.effect).1 = some "Attack".toList :=
  (effect_types_spec exRows).2.2.2 "Attack".toList

end RemainingTheorems

end BCCombo
